import Mathlib

/-!
Shallow embedding of the `spirytus` package (src/spirytus.go), a minimal
HTTP helper toolkit: JSON encode/decode shims (`JSONResponse`, `JSONRequest`)
and a per-endpoint `Resource` that dispatches requests by HTTP method,
synthesizes `OPTIONS` and 405 responses, and maintains an `Allow` header
string incrementally.

Handlers are opaque to the package (Go's `http.Handler`); they are modelled
by a type parameter `H`.  The JSON library (`encoding/json`) is external to
the repository; its marshal/decode outcomes are modelled as abstract inputs.
HTTP request bodies are byte streams, modelled as `List Nat`.
-/

namespace Spirytus

/-- An incoming HTTP request, as far as this package reads it:
its method string, its body byte stream, and the value of its
`Origin` header (`""` when absent, as Go's `Header.Get` returns). -/
structure Request where
  method : String
  body : List Nat
  origin : String
  deriving Repr, DecidableEq

/-- One call the code makes on an `http.ResponseWriter`:
`w.Header().Set(name, value)`, `w.WriteHeader(code)` (the status line),
or `w.Write(bytes)` (body bytes). -/
inductive WriteEvent where
  | setHeader (name value : String)
  | writeHeader (code : Int)
  | write (bytes : List Nat)
  deriving Repr, DecidableEq

/-- `JSONResponse` (src/spirytus.go:15-25).  `marshalResult` is the outcome
of `json.Marshal(value)` (the JSON library is external, so its outcome is an
input of the embedding): either an error string or the encoded bytes.
`writeErr` is the error component of the `(n, err)` pair that the writer's
`Write` call at line 23 would return; the source discards that pair, which
the embedding mirrors by not inspecting `writeErr`.  The result is the list
of calls made on the writer, in order, paired with the returned `error`
(`none` = Go `nil`). -/
def JSONResponse (marshalResult : Except String (List Nat)) (code : Int)
    (writeErr : Option String) : List WriteEvent × Option String :=
  match marshalResult with
  | .error err => ([], some err)
  | .ok v =>
    ([.setHeader "Content-Type" "application/json",
      .writeHeader code,
      .write v], none)

/-- `JSONRequest` (src/spirytus.go:28-31).  `decode` is the action of
`json.NewDecoder(req.Body).Decode(v)` on a full body stream (the JSON
library is external): it yields either the decode error or the decoded
value of type `V`.  The source returns the decoder's result directly. -/
def JSONRequest {V : Type} (req : Request) (decode : List Nat → Except String V) :
    Except String V :=
  decode req.body

/-- One (method, handler) binding of a `Resource` (src/spirytus.go:40-43). -/
structure methodHandler (H : Type) where
  method : String
  handler : H
  deriving Repr, DecidableEq

/-- The `Resource` struct (src/spirytus.go:35-38): the incrementally built
`allow` string and the ordered list of bindings. -/
structure Resource (H : Type) where
  allow : String
  methods : List (methodHandler H)
  deriving Repr, DecidableEq

/-- The zero value of `Resource` (a never-initialized Go instance). -/
def Resource.empty (H : Type) : Resource H := ⟨"", []⟩

/-- The replace-in-place loop of `Handle` (src/spirytus.go:48-53): find the
first binding with this method and overwrite it; `none` when no binding has
the method. -/
def replaceBound {H : Type} (h : methodHandler H) :
    List (methodHandler H) → Option (List (methodHandler H))
  | [] => none
  | m :: ms =>
    if m.method = h.method then some (h :: ms)
    else (replaceBound h ms).map (m :: ·)

/-- `Resource.Handle` (src/spirytus.go:46-59): replace an existing binding
for `method` in place, or append a new binding and extend `allow` by
`method`, prefixed with `", "` when `allow` is non-empty. -/
def Resource.Handle {H : Type} (r : Resource H) (method : String) (handler : H) :
    Resource H :=
  let h : methodHandler H := ⟨method, handler⟩
  match replaceBound h r.methods with
  | some ms => { r with methods := ms }
  | none =>
    { allow := r.allow ++ (if r.allow ≠ "" then ", " ++ method else method),
      methods := r.methods ++ [h] }

/-- A `Resource` as `ServeHTTP`'s receiver: `none` models a nil `*Resource`. -/
def bindAll {H : Type} (r : Resource H) (calls : List (String × H)) : Resource H :=
  calls.foldl (fun r c => r.Handle c.1 c.2) r

/-- What one dispatch does: either the resource itself wrote a terminal
response (its `Allow` header if set, its status code, its body text), or it
delegated to a bound handler and wrote nothing itself. -/
inductive DispatchResult (H : Type) where
  | wrote (allowHeader : Option String) (status : Int) (body : String)
  | invoked (h : H)
  deriving Repr, DecidableEq

/-- The match loop of `ServeHTTP` (src/spirytus.go:72-77): the first binding
whose method equals the request method, scanning in insertion order. -/
def findHandler {H : Type} (method : String) : List (methodHandler H) → Option H
  | [] => none
  | m :: ms => if method = m.method then some m.handler else findHandler method ms

/-- `Resource.serveOptions` (src/spirytus.go:82-86): set `Allow` to the
`allow` string, write status 200, write no body. -/
def serveOptions {H : Type} (r : Resource H) : DispatchResult H :=
  .wrote (some r.allow) 200 ""

/-- `Resource.ServeHTTP` (src/spirytus.go:61-80).  The receiver is an
`Option` because Go's `*Resource` may be nil (the code checks
`r == nil || len(r.methods) == 0` first).  `http.Error` writes its message
followed by a newline and does not set `Allow` on the 404 path; the 405 path
sets `Allow` before calling `http.Error`. -/
def ServeHTTP {H : Type} (r : Option (Resource H)) (req : Request) :
    DispatchResult H :=
  match r with
  | none => .wrote none 404 "Not found\n"
  | some r =>
    if r.methods.isEmpty then .wrote none 404 "Not found\n"
    else if req.method = "OPTIONS" then serveOptions r
    else
      match findHandler req.method r.methods with
      | some h => .invoked h
      | none => .wrote (some r.allow) 405 "Not allowed\n"

/-- `Resource.allowOrigin` (src/spirytus.go:88-90): always true. -/
def allowOrigin (req : Request) : Bool := true

/-- `Resource.serveCORS` (src/spirytus.go:92-103), a fuel-indexed embedding
of the self-recursive helper.  When the request's `Origin` header is
non-empty (and `allowOrigin` holds, which it always does), the source calls
itself with the same arguments before setting the CORS header; `none` means
the given fuel was exhausted, so `serveCORS req fuel = none` for every
`fuel` renders non-termination.  The trailing `if req.Method == "OPTIONS"`
branches are both empty in the source and write nothing. -/
def serveCORS (req : Request) : Nat → Option (List WriteEvent)
  | 0 => none
  | fuel + 1 =>
    if req.origin ≠ "" && allowOrigin req then
      match serveCORS req fuel with
      | none => none
      | some evs =>
          some (evs ++ [.setHeader "Access-Control-Allow-Origin" req.origin])
    else
      some []

/-! Specification-side definitions: the distinct bound methods in
first-seen order, and the comma-plus-space join, written from the claims'
words, to be compared with the `allow` field the source builds. -/

/-- Append a method name unless it was already seen (keeps first-seen
order). -/
def addName (ns : List String) (m : String) : List String :=
  if m ∈ ns then ns else ns ++ [m]

/-- The distinct elements of a list, in first-seen order. -/
def distinctFirstSeen (ms : List String) : List String :=
  ms.foldl addName []

/-- The comma-plus-space join of a list of method names. -/
def joinComma : List String → String
  | [] => ""
  | [m] => m
  | m :: m' :: ms => m ++ ", " ++ joinComma (m' :: ms)

/-- The method-name projection of a binding list. -/
def names {H : Type} (ms : List (methodHandler H)) : List String :=
  ms.map methodHandler.method

/-- The tail of a comma join: each element prefixed by `", "`. -/
def joinCommaTail : List String → String
  | [] => ""
  | a :: t => ", " ++ a ++ joinCommaTail t

/-- The invariant maintained by `Handle` as long as only non-empty method
strings are bound: `allow` is the comma join of the bound method names, and
every bound name is non-empty. -/
def AllowInv {H : Type} (r : Resource H) : Prop :=
  r.allow = joinComma (names r.methods) ∧ ∀ x ∈ names r.methods, x ≠ ""

theorem joinComma_cons (x : String) (t : List String) :
    joinComma (x :: t) = x ++ joinCommaTail t := by
  induction t generalizing x with
  | nil => simp [joinComma, joinCommaTail]
  | cons a t ih => simp [joinComma, joinCommaTail, ih, String.append_assoc]

theorem intercalate_go_eq (acc : String) (as : List String) :
    String.intercalate.go acc ", " as = acc ++ joinCommaTail as := by
  induction as generalizing acc with
  | nil => simp [String.intercalate.go, joinCommaTail]
  | cons a t ih => simp [String.intercalate.go, joinCommaTail, ih, String.append_assoc]

theorem joinComma_eq_intercalate (ns : List String) :
    joinComma ns = String.intercalate ", " ns := by
  cases ns with
  | nil => rfl
  | cons a t => rw [joinComma_cons, String.intercalate, intercalate_go_eq]

theorem append_ne_empty_left {a : String} (b : String) (h : a ≠ "") :
    a ++ b ≠ "" := by
  intro hc
  have hd : (a ++ b).data = ("" : String).data := by rw [hc]
  simp [String.data_append] at hd
  exact h (String.ext hd.1)

theorem joinComma_ne_empty {ns : List String} (h0 : ∀ x ∈ ns, x ≠ "")
    (h1 : ns ≠ []) : joinComma ns ≠ "" := by
  cases ns with
  | nil => exact absurd rfl h1
  | cons a t =>
    cases t with
    | nil => simpa [joinComma] using h0 a (by simp)
    | cons b t2 =>
      rw [joinComma]
      exact append_ne_empty_left _ (append_ne_empty_left _ (h0 a (by simp)))

theorem joinComma_append {ns : List String} (hne : ns ≠ []) (m : String) :
    joinComma (ns ++ [m]) = joinComma ns ++ (", " ++ m) := by
  induction ns with
  | nil => exact absurd rfl hne
  | cons a t ih =>
    cases t with
    | nil => simp [joinComma, String.append_assoc]
    | cons b t2 =>
      have h2 := ih (by simp)
      simp only [List.cons_append] at h2 ⊢
      rw [joinComma, joinComma, h2]
      simp [String.append_assoc]

/-! ### Lemmas about the replace-in-place loop of `Handle` -/

theorem replaceBound_none_iff {H : Type} (h : methodHandler H)
    (ms : List (methodHandler H)) :
    replaceBound h ms = none ↔ h.method ∉ names ms := by
  induction ms with
  | nil => simp [replaceBound, names]
  | cons m t ih =>
    by_cases hm : m.method = h.method
    · simp [replaceBound, hm, names]
    · simp [replaceBound, hm, names, ih, Ne.symm hm]

theorem replaceBound_some_names {H : Type} {h : methodHandler H} :
    ∀ {ms ms' : List (methodHandler H)}, replaceBound h ms = some ms' →
      names ms' = names ms := by
  intro ms
  induction ms with
  | nil => intro ms' e; simp [replaceBound] at e
  | cons m t ih =>
    intro ms' e
    by_cases hm : m.method = h.method
    · simp [replaceBound, hm] at e
      subst e
      simp [names, hm]
    · simp [replaceBound, hm] at e
      obtain ⟨t', ht', rfl⟩ := e
      have h3 := ih ht'
      simp only [names, List.map_cons] at h3 ⊢
      rw [h3]

theorem replaceBound_some_find {H : Type} {h : methodHandler H} :
    ∀ {ms ms' : List (methodHandler H)}, replaceBound h ms = some ms' →
      findHandler h.method ms' = some h.handler := by
  intro ms
  induction ms with
  | nil => intro ms' e; simp [replaceBound] at e
  | cons m t ih =>
    intro ms' e
    by_cases hm : m.method = h.method
    · simp [replaceBound, hm] at e
      subst e
      simp [findHandler]
    · simp [replaceBound, hm] at e
      obtain ⟨t', ht', rfl⟩ := e
      simp [findHandler, Ne.symm hm, ih ht']

theorem replaceBound_some_ne_nil {H : Type} {h : methodHandler H}
    {ms ms' : List (methodHandler H)} (e : replaceBound h ms = some ms') :
    ms' ≠ [] := by
  cases ms with
  | nil => simp [replaceBound] at e
  | cons m t =>
    by_cases hm : m.method = h.method
    · simp [replaceBound, hm] at e
      subst e; simp
    · simp [replaceBound, hm] at e
      obtain ⟨t', _, rfl⟩ := e
      simp

theorem findHandler_append {H : Type} (m : String) (h : H)
    {ms : List (methodHandler H)} (hm : m ∉ names ms) :
    findHandler m (ms ++ [⟨m, h⟩]) = some h := by
  induction ms with
  | nil => simp [findHandler]
  | cons a t ih =>
    simp [names] at hm
    have h4 : m ∉ names t := by simp [names]; exact hm.2
    simp only [List.cons_append, findHandler, hm.1, if_neg hm.1]
    exact ih h4

/-! ### Lemmas about `Handle` -/

theorem Handle_names {H : Type} (r : Resource H) (m : String) (h : H) :
    names (r.Handle m h).methods = addName (names r.methods) m := by
  unfold Resource.Handle
  cases hrb : replaceBound (⟨m, h⟩ : methodHandler H) r.methods with
  | some ms' =>
    have hmem : m ∈ names r.methods := by
      by_contra hc
      rw [(replaceBound_none_iff ⟨m, h⟩ r.methods).mpr hc] at hrb
      exact Option.noConfusion hrb
    simp [hrb, replaceBound_some_names hrb, addName, hmem]
  | none =>
    have hmem : m ∉ names r.methods := (replaceBound_none_iff ⟨m, h⟩ r.methods).mp hrb
    simp only [hrb]
    show names (r.methods ++ [⟨m, h⟩]) = addName (names r.methods) m
    simp only [addName, if_neg hmem]
    simp [names]

theorem Handle_allow_bound {H : Type} (r : Resource H) (m : String) (h : H)
    (hmem : m ∈ names r.methods) : (r.Handle m h).allow = r.allow := by
  unfold Resource.Handle
  cases hrb : replaceBound (⟨m, h⟩ : methodHandler H) r.methods with
  | some ms' => simp [hrb]
  | none => exact absurd hmem ((replaceBound_none_iff ⟨m, h⟩ r.methods).mp hrb)

theorem Handle_allow_new {H : Type} (r : Resource H) (m : String) (h : H)
    (hmem : m ∉ names r.methods) :
    (r.Handle m h).allow = r.allow ++ (if r.allow ≠ "" then ", " ++ m else m) := by
  unfold Resource.Handle
  cases hrb : replaceBound (⟨m, h⟩ : methodHandler H) r.methods with
  | some ms' =>
    exfalso
    apply hmem
    by_contra hc
    rw [(replaceBound_none_iff ⟨m, h⟩ r.methods).mpr hc] at hrb
    exact Option.noConfusion hrb
  | none => simp [hrb]

theorem Handle_findHandler {H : Type} (r : Resource H) (m : String) (h : H) :
    findHandler m (r.Handle m h).methods = some h := by
  unfold Resource.Handle
  cases hrb : replaceBound (⟨m, h⟩ : methodHandler H) r.methods with
  | some ms' =>
    simp only [hrb]
    exact replaceBound_some_find hrb
  | none =>
    simp only [hrb]
    exact findHandler_append m h ((replaceBound_none_iff ⟨m, h⟩ r.methods).mp hrb)

theorem Handle_methods_ne_nil {H : Type} (r : Resource H) (m : String) (h : H) :
    (r.Handle m h).methods ≠ [] := by
  unfold Resource.Handle
  cases hrb : replaceBound (⟨m, h⟩ : methodHandler H) r.methods with
  | some ms' =>
    simp only [hrb]
    exact replaceBound_some_ne_nil hrb
  | none => simp [hrb]

/-! ### The allow-string invariant -/

theorem Handle_AllowInv {H : Type} {r : Resource H} {m : String} (h : H)
    (hr : AllowInv r) (hm : m ≠ "") : AllowInv (r.Handle m h) := by
  obtain ⟨ha, hne⟩ := hr
  by_cases hmem : m ∈ names r.methods
  · constructor
    · rw [Handle_allow_bound r m h hmem, Handle_names]
      simp only [addName, if_pos hmem]
      exact ha
    · rw [Handle_names]
      simp only [addName, if_pos hmem]
      exact hne
  · constructor
    · rw [Handle_allow_new r m h hmem, Handle_names]
      simp only [addName, if_neg hmem]
      by_cases hn : names r.methods = []
      · rw [hn] at ha ⊢
        simp only [joinComma] at ha
        rw [ha]
        simp [joinComma]
      · have hallow : r.allow ≠ "" := by rw [ha]; exact joinComma_ne_empty hne hn
        rw [if_pos hallow, joinComma_append hn, ha]
    · rw [Handle_names]
      simp only [addName, if_neg hmem]
      intro x hx
      rcases List.mem_append.mp hx with hx | hx
      · exact hne x hx
      · simp at hx; subst hx; exact hm

/-! ### Lemmas about `bindAll` -/

theorem bindAll_names {H : Type} (calls : List (String × H)) :
    ∀ r : Resource H, names (bindAll r calls).methods
      = (calls.map Prod.fst).foldl addName (names r.methods) := by
  induction calls with
  | nil => intro r; rfl
  | cons c t ih =>
    intro r
    show names (bindAll (r.Handle c.1 c.2) t).methods = _
    rw [ih, Handle_names]
    rfl

theorem bindAll_AllowInv {H : Type} (calls : List (String × H)) :
    ∀ r : Resource H, AllowInv r → (∀ c ∈ calls, c.1 ≠ "") →
      AllowInv (bindAll r calls) := by
  induction calls with
  | nil => intro r hr _; exact hr
  | cons c t ih =>
    intro r hr hne
    show AllowInv (bindAll (r.Handle c.1 c.2) t)
    exact ih _ (Handle_AllowInv c.2 hr (hne c (by simp))) fun d hd => hne d (by simp [hd])

/-! ### Lemmas about the dispatch match loop -/

theorem isEmpty_false_of_ne_nil {α : Type} {l : List α} (h : l ≠ []) :
    l.isEmpty = false := by
  cases l with
  | nil => exact absurd rfl h
  | cons a t => rfl

theorem findHandler_eq_none {H : Type} {m : String} :
    ∀ {ms : List (methodHandler H)}, (∀ mh ∈ ms, mh.method ≠ m) →
      findHandler m ms = none := by
  intro ms
  induction ms with
  | nil => intro _; rfl
  | cons a t ih =>
    intro hall
    have ha : m ≠ a.method := fun e => hall a (by simp) e.symm
    simp [findHandler, ha]
    exact ih fun mh hmh => hall mh (by simp [hmh])

theorem findHandler_first {H : Type} {m : String} (mh : methodHandler H)
    (post : List (methodHandler H)) :
    ∀ pre : List (methodHandler H), (∀ mh2 ∈ pre, mh2.method ≠ m) →
      mh.method = m → findHandler m (pre ++ mh :: post) = some mh.handler := by
  intro pre
  induction pre with
  | nil => intro _ hm; simp [findHandler, hm.symm]
  | cons a t ih =>
    intro hall hm
    have ha : m ≠ a.method := fun e => hall a (by simp) e.symm
    simp only [List.cons_append, findHandler, if_neg ha]
    exact ih (fun mh2 hmh2 => hall mh2 (by simp [hmh2])) hm

theorem findHandler_some_mem {H : Type} {m : String} :
    ∀ {ms : List (methodHandler H)} {h : H}, findHandler m ms = some h →
      ∃ mh ∈ ms, mh.handler = h := by
  intro ms
  induction ms with
  | nil => intro h e; simp [findHandler] at e
  | cons a t ih =>
    intro h e
    by_cases hm : m = a.method
    · simp [findHandler, hm] at e
      exact ⟨a, by simp, e⟩
    · simp [findHandler, hm] at e
      obtain ⟨mh, hmem, hh⟩ := ih e
      exact ⟨mh, by simp [hmem], hh⟩

/-! ### Claim theorems -/

/-- C1, counterexample to the claim as stated: after `Handle("", h0)` and
then `Handle("GET", h1)`, the `allow` field is `"GET"`, but the
comma-plus-space join of the distinct bound methods in first-seen order is
`", GET"` — binding the empty-string method leaves `allow` empty, so the
next append omits its `", "` prefix. -/
theorem allow_ne_join_of_empty_method :
    (bindAll (Resource.empty Nat) [("", 0), ("GET", 1)]).allow
      ≠ String.intercalate ", "
          (distinctFirstSeen
            (List.map Prod.fst ([("", 0), ("GET", 1)] : List (String × Nat)))) := by
  decide

/-- C1 (amended): for every sequence of `Handle` calls in which every bound
method is a non-empty string, the `allow` field equals the comma-plus-space
join of the distinct bound methods in first-seen order; moreover re-binding
an already-bound method on any resource leaves `allow` unchanged (no
duplicate entry), regardless of how many times each method is rebound. -/
theorem allow_eq_join_distinct_of_ne_empty {H : Type} (calls : List (String × H))
    (hne : ∀ c ∈ calls, c.1 ≠ "") :
    (bindAll (Resource.empty H) calls).allow
      = String.intercalate ", " (distinctFirstSeen (calls.map Prod.fst))
    ∧ ∀ (r : Resource H) (m : String) (h : H),
        m ∈ names r.methods → (r.Handle m h).allow = r.allow := by
  constructor
  · have inv := bindAll_AllowInv calls (Resource.empty H)
      ⟨rfl, by simp [names, Resource.empty]⟩ hne
    rw [inv.1, ← joinComma_eq_intercalate, bindAll_names]
    rfl
  · exact fun r m h hm => Handle_allow_bound r m h hm

/-- Witness for the amended allow-list theorem at a concrete call sequence
(GET, POST, then GET rebound) and a concrete re-binding. -/
theorem allow_eq_join_distinct_witness :
    ((bindAll (Resource.empty Nat) [("GET", 1), ("POST", 2), ("GET", 3)]).allow
      = String.intercalate ", "
          (distinctFirstSeen
            (List.map Prod.fst
              ([("GET", 1), ("POST", 2), ("GET", 3)] : List (String × Nat)))))
    ∧ (((Resource.empty Nat).Handle "GET" 1).Handle "GET" 5).allow
        = ((Resource.empty Nat).Handle "GET" 1).allow := by
  refine ⟨(allow_eq_join_distinct_of_ne_empty _ ?_).1,
          (allow_eq_join_distinct_of_ne_empty ([] : List (String × Nat)) ?_).2
            ((Resource.empty Nat).Handle "GET" 1) "GET" 5 ?_⟩
  · decide
  · decide
  · decide

/-- C6: when JSON marshalling of the value fails, `JSONResponse` returns that
error and makes no call at all on the writer: no header is set, no status
line is written, and no body bytes are written. -/
theorem jsonResponse_error_writes_nothing (err : String) (code : Int)
    (writeErr : Option String) :
    JSONResponse (.error err) code writeErr = ([], some err) := rfl

/-- C7: when JSON marshalling succeeds, `JSONResponse` sets the
`Content-Type: application/json` header, then writes the status line with
the caller-given status code, then writes exactly the encoded bytes, in that
order, and returns success. -/
theorem jsonResponse_success_events (v : List Nat) (code : Int)
    (writeErr : Option String) :
    JSONResponse (.ok v) code writeErr
      = ([.setHeader "Content-Type" "application/json",
          .writeHeader code,
          .write v], none) := rfl

/-- C8: `JSONRequest` returns exactly the result of the underlying JSON
stream decode applied to the full request body — errors are surfaced
unmodified with no wrapping and no body size limit, and it succeeds exactly
when the decode succeeds. -/
theorem jsonRequest_returns_decode {V : Type} (req : Request)
    (decode : List Nat → Except String V) :
    JSONRequest req decode = decode req.body := rfl

/-- C10: when JSON marshalling succeeds, `JSONResponse` returns success
unconditionally: its behaviour and its returned value do not depend on the
error the writer's `Write` call reports, which the source discards. -/
theorem jsonResponse_success_ignores_write_error (v : List Nat) (code : Int)
    (we1 we2 : Option String) :
    JSONResponse (.ok v) code we1 = JSONResponse (.ok v) code we2
    ∧ (JSONResponse (.ok v) code we1).2 = none := ⟨rfl, rfl⟩

/-- C2: dispatching a request whose method is OPTIONS on any non-empty
resource writes status 200 with the `Allow` header set to the allow string
and an empty body, and invokes no bound handler; this also holds after
OPTIONS itself is bound, because OPTIONS is intercepted before the match
loop. -/
theorem dispatch_options_200 {H : Type} (r : Resource H) (req : Request)
    (hne : r.methods ≠ []) (hm : req.method = "OPTIONS") :
    ServeHTTP (some r) req = .wrote (some r.allow) 200 ""
    ∧ ∀ h : H, ServeHTTP (some (r.Handle "OPTIONS" h)) req
        = .wrote (some (r.Handle "OPTIONS" h).allow) 200 "" := by
  constructor
  · simp [ServeHTTP, isEmpty_false_of_ne_nil hne, hm, serveOptions]
  · intro h
    simp [ServeHTTP, isEmpty_false_of_ne_nil (Handle_methods_ne_nil r "OPTIONS" h),
      hm, serveOptions]

/-- Witness for the OPTIONS dispatch theorem on a concrete resource,
including one where OPTIONS itself is bound. -/
theorem dispatch_options_200_witness :
    (ServeHTTP (some ((Resource.empty Nat).Handle "GET" 1)) ⟨"OPTIONS", [], ""⟩
      = .wrote (some ((Resource.empty Nat).Handle "GET" 1).allow) 200 "")
    ∧ ServeHTTP (some (((Resource.empty Nat).Handle "GET" 1).Handle "OPTIONS" 9))
        ⟨"OPTIONS", [], ""⟩
      = .wrote (some (((Resource.empty Nat).Handle "GET" 1).Handle "OPTIONS" 9).allow)
          200 "" :=
  ⟨(dispatch_options_200 ((Resource.empty Nat).Handle "GET" 1)
      ⟨"OPTIONS", [], ""⟩ (by decide) rfl).1,
   (dispatch_options_200 ((Resource.empty Nat).Handle "GET" 1)
      ⟨"OPTIONS", [], ""⟩ (by decide) rfl).2 9⟩

/-- C3: dispatch on a nil resource, and on any resource with zero bindings
(including the zero value, never initialized), writes 404 with body
`"Not found\n"`, sets no `Allow` header, and invokes no handler, for every
request method including OPTIONS, without faulting. -/
theorem dispatch_empty_404 {H : Type} (req : Request) :
    ServeHTTP (H := H) none req = .wrote none 404 "Not found\n"
    ∧ ∀ r : Resource H, r.methods = [] →
        ServeHTTP (some r) req = .wrote none 404 "Not found\n" := by
  refine ⟨rfl, fun r hr => ?_⟩
  simp [ServeHTTP, hr]

/-- Witness for the empty-resource 404 theorem: a nil receiver and the
zero-valued instance, dispatched with method OPTIONS. -/
theorem dispatch_empty_404_witness :
    ServeHTTP (H := Nat) none ⟨"OPTIONS", [], ""⟩ = .wrote none 404 "Not found\n"
    ∧ ServeHTTP (some (Resource.empty Nat)) ⟨"OPTIONS", [], ""⟩
        = .wrote none 404 "Not found\n" :=
  ⟨(dispatch_empty_404 ⟨"OPTIONS", [], ""⟩).1,
   (dispatch_empty_404 ⟨"OPTIONS", [], ""⟩).2 (Resource.empty Nat) rfl⟩

/-- C4: re-binding a bound method replaces its handler in place — the allow
string and the binding scan order are unchanged, and dispatching that method
invokes the newly bound handler; concretely, after `Handle("GET", h1)`,
`Handle("POST", h2)`, `Handle("GET", h3)`, the allow string is `"GET, POST"`
and dispatching GET invokes `h3`. -/
theorem rebind_replaces_in_place {H : Type} (r : Resource H) (m : String)
    (h : H) (req : Request) (hmem : m ∈ names r.methods)
    (hreq : req.method = m) (hopt : m ≠ "OPTIONS") :
    ((r.Handle m h).allow = r.allow
      ∧ names (r.Handle m h).methods = names r.methods
      ∧ ServeHTTP (some (r.Handle m h)) req = .invoked h)
    ∧ ∀ (h1 h2 h3 : H) (req2 : Request), req2.method = "GET" →
        ((((Resource.empty H).Handle "GET" h1).Handle "POST" h2).Handle "GET" h3).allow
            = "GET, POST"
        ∧ ServeHTTP
            (some ((((Resource.empty H).Handle "GET" h1).Handle "POST" h2).Handle
              "GET" h3)) req2
            = .invoked h3 := by
  subst hreq
  constructor
  · refine ⟨Handle_allow_bound r req.method h hmem, ?_, ?_⟩
    · rw [Handle_names]
      simp only [addName, if_pos hmem]
    · simp [ServeHTTP,
        isEmpty_false_of_ne_nil (Handle_methods_ne_nil r req.method h), hopt,
        Handle_findHandler]
  · intro h1 h2 h3 req2 hreq2
    have e3 : (((Resource.empty H).Handle "GET" h1).Handle "POST" h2).Handle "GET" h3
        = ⟨"GET, POST", [⟨"GET", h3⟩, ⟨"POST", h2⟩]⟩ := rfl
    rw [e3]
    have hgo : ("GET" : String) ≠ "OPTIONS" := by decide
    exact ⟨rfl, by simp [ServeHTTP, hreq2, hgo, findHandler]⟩

/-- Witness for the re-binding theorem: rebinding GET on a one-binding
resource, and the concrete GET/POST/GET scenario with handlers 1, 2, 3. -/
theorem rebind_replaces_in_place_witness :
    ((((Resource.empty Nat).Handle "GET" 1).Handle "GET" 7).allow
        = ((Resource.empty Nat).Handle "GET" 1).allow
      ∧ names (((Resource.empty Nat).Handle "GET" 1).Handle "GET" 7).methods
        = names ((Resource.empty Nat).Handle "GET" 1).methods
      ∧ ServeHTTP (some (((Resource.empty Nat).Handle "GET" 1).Handle "GET" 7))
          ⟨"GET", [], ""⟩ = .invoked 7)
    ∧ ((((Resource.empty Nat).Handle "GET" 1).Handle "POST" 2).Handle "GET" 3).allow
        = "GET, POST"
    ∧ ServeHTTP
        (some ((((Resource.empty Nat).Handle "GET" 1).Handle "POST" 2).Handle "GET" 3))
        ⟨"GET", [], ""⟩ = .invoked 3 := by
  have h := rebind_replaces_in_place ((Resource.empty Nat).Handle "GET" 1) "GET" 7
    ⟨"GET", [], ""⟩ (by decide) rfl (by decide)
  exact ⟨h.1, (h.2 1 2 3 ⟨"GET", [], ""⟩ rfl).1, (h.2 1 2 3 ⟨"GET", [], ""⟩ rfl).2⟩

/-- C5: on a non-empty resource, a non-OPTIONS request matching no binding
is answered 405 with body `"Not allowed\n"` and the `Allow` header set to
the allow string; when the method does match, the first matching handler in
insertion order is invoked and the dispatch writes nothing itself. -/
theorem dispatch_405_or_first_match {H : Type} (r : Resource H) (req : Request)
    (hne : r.methods ≠ []) (hopt : req.method ≠ "OPTIONS") :
    ((∀ mh ∈ r.methods, mh.method ≠ req.method) →
        ServeHTTP (some r) req = .wrote (some r.allow) 405 "Not allowed\n")
    ∧ ∀ (pre post : List (methodHandler H)) (mh : methodHandler H),
        r.methods = pre ++ mh :: post → mh.method = req.method →
        (∀ mh2 ∈ pre, mh2.method ≠ req.method) →
        ServeHTTP (some r) req = .invoked mh.handler := by
  constructor
  · intro hnomatch
    simp [ServeHTTP, isEmpty_false_of_ne_nil hne, hopt,
      findHandler_eq_none hnomatch]
  · intro pre post mh heq hm hpre
    have hf : findHandler req.method r.methods = some mh.handler := by
      rw [heq]
      exact findHandler_first mh post pre hpre hm
    simp [ServeHTTP, isEmpty_false_of_ne_nil hne, hopt, hf]

/-- Witness for the 405/first-match theorem: an unbound DELETE answered 405
and a bound GET dispatched to its handler. -/
theorem dispatch_405_or_first_match_witness :
    ServeHTTP (some ((Resource.empty Nat).Handle "GET" 1)) ⟨"DELETE", [], ""⟩
      = .wrote (some ((Resource.empty Nat).Handle "GET" 1).allow) 405 "Not allowed\n"
    ∧ ServeHTTP (some ((Resource.empty Nat).Handle "GET" 1)) ⟨"GET", [], ""⟩
      = .invoked 1 :=
  ⟨(dispatch_405_or_first_match ((Resource.empty Nat).Handle "GET" 1)
      ⟨"DELETE", [], ""⟩ (by decide) (by decide)).1 (by decide),
   (dispatch_405_or_first_match ((Resource.empty Nat).Handle "GET" 1)
      ⟨"GET", [], ""⟩ (by decide) (by decide)).2 [] [] ⟨"GET", 1⟩ rfl rfl
      (by simp)⟩

/-- C9, counterexample to the claim as stated: on a request whose `Origin`
header is absent (the empty string), the CORS helper returns at once — one
unit of fuel suffices and it writes nothing — so it is not true that it
never terminates. -/
theorem serveCORS_terminates_without_origin :
    serveCORS ⟨"GET", [], ""⟩ 1 = some [] := rfl

/-- C9 (amended): the self-recursive CORS helper never terminates on any
request whose `Origin` header is non-empty (`allowOrigin` always holds): no
amount of fuel lets it return; on a request without an `Origin` header it
returns at once, writing nothing; and no dispatch path invokes it: a
dispatch that does not write a terminal response itself only ever invokes a
handler bound in the resource. -/
theorem serveCORS_diverges_and_unreachable {H : Type} (req : Request) :
    (req.origin ≠ "" → ∀ fuel, serveCORS req fuel = none)
    ∧ (req.origin = "" → ∀ fuel, serveCORS req (fuel + 1) = some [])
    ∧ ∀ (r : Resource H) (h : H), ServeHTTP (some r) req = .invoked h →
        ∃ mh ∈ r.methods, mh.handler = h := by
  refine ⟨?_, ?_, ?_⟩
  · intro ho fuel
    induction fuel with
    | zero => rfl
    | succ n ih => simp [serveCORS, allowOrigin, ho, ih]
  · intro ho fuel
    simp [serveCORS, ho]
  · intro r h hsh
    simp only [ServeHTTP] at hsh
    cases he : r.methods.isEmpty with
    | true => simp [he] at hsh
    | false =>
      simp only [he] at hsh
      by_cases hm : req.method = "OPTIONS"
      · simp [hm, serveOptions] at hsh
      · simp only [hm, if_neg, if_false, Bool.false_eq_true, reduceIte] at hsh
        cases hf : findHandler req.method r.methods with
        | none => simp [hm, hf] at hsh
        | some h2 =>
          simp [hm, hf] at hsh
          subst hsh
          exact findHandler_some_mem hf

/-- Witness for the CORS theorem: divergence at a concrete request with an
`Origin` header, immediate return without one, and a concrete dispatch that
invokes only the bound handler. -/
theorem serveCORS_diverges_witness :
    serveCORS ⟨"GET", [], "http://e.com"⟩ 3 = none
    ∧ serveCORS ⟨"POST", [], ""⟩ 1 = some []
    ∧ ∃ mh ∈ ((Resource.empty Nat).Handle "GET" 5).methods, mh.handler = 5 := by
  refine ⟨(serveCORS_diverges_and_unreachable (H := Nat)
      ⟨"GET", [], "http://e.com"⟩).1 (by decide) 3, ?_, ?_⟩
  · exact (serveCORS_diverges_and_unreachable (H := Nat) ⟨"POST", [], ""⟩).2.1 rfl 0
  · exact (serveCORS_diverges_and_unreachable (H := Nat) ⟨"GET", [], ""⟩).2.2
      ((Resource.empty Nat).Handle "GET" 5) 5 (by decide)

end Spirytus
